import Mathlib

/-!
Verification of the secret-censoring text filter of `dataeng_container_tools`
(`safe_textio.py` and the bad-word feeding code of `secrets_manager.py`).

The Python vocabulary `SafeTextIO._bad_words` is a `set[str]`; we model a
Python string set as a duplicate-free `List String` with guarded insertion
(`setAdd`), so membership, insertion and cardinality (`List.length`) agree
with the Python semantics while staying kernel-computable.
-/

namespace CensorModel

/-- Lowercase hexadecimal digit, as used by CPython escape rendering. -/
def hexDigit (n : Nat) : Char :=
  if n < 10 then Char.ofNat (48 + n) else Char.ofNat (87 + n)

/-- Fixed-width big-endian lowercase hexadecimal rendering of `n`. -/
def hexChars (width n : Nat) : List Char :=
  (List.range width).map (fun i => hexDigit (n / 16 ^ (width - 1 - i) % 16))

/-- Escape of one character under `json.dumps` with its default
`ensure_ascii=True` (CPython `py_encode_basestring_ascii`): backslash and
quote get a backslash escape, the short control escapes `\b \t \n \f \r`
are used, all other characters outside printable ASCII 0x20..0x7e become
`\uXXXX` (a surrogate pair above 0xFFFF). -/
def jsonEscapeChar (c : Char) : List Char :=
  let n := c.toNat
  if c = '"' then ['\\', '"']
  else if c = '\\' then ['\\', '\\']
  else if c = '\n' then ['\\', 'n']
  else if c = '\r' then ['\\', 'r']
  else if c = '\t' then ['\\', 't']
  else if n = 8 then ['\\', 'b']
  else if n = 12 then ['\\', 'f']
  else if n < 32 then '\\' :: 'u' :: hexChars 4 n
  else if n ≤ 126 then [c]
  else if n < 65536 then '\\' :: 'u' :: hexChars 4 n
  else
    ('\\' :: 'u' :: hexChars 4 (55296 + (n - 65536) / 1024)) ++
      ('\\' :: 'u' :: hexChars 4 (56320 + (n - 65536) % 1024))

/-- `json.dumps(s)` for a Python `str` `s` with default arguments:
a double-quoted string with every character escaped per `jsonEscapeChar`. -/
def jsonDumps (s : String) : String :=
  String.mk ('"' :: s.data.flatMap jsonEscapeChar ++ ['"'])

/-- Escape of one character under CPython's `unicode-escape` codec:
backslash doubled, short escapes `\t \n \r`, other controls and 0x7f..0xff
as `\xHH`, non-Latin-1 as `\uXXXX` or `\UXXXXXXXX`; quotes are NOT escaped. -/
def unicodeEscapeChar (c : Char) : List Char :=
  let n := c.toNat
  if c = '\\' then ['\\', '\\']
  else if c = '\t' then ['\\', 't']
  else if c = '\n' then ['\\', 'n']
  else if c = '\r' then ['\\', 'r']
  else if n < 32 ∨ (127 ≤ n ∧ n < 256) then '\\' :: 'x' :: hexChars 2 n
  else if n < 127 then [c]
  else if n < 65536 then '\\' :: 'u' :: hexChars 4 n
  else '\\' :: 'U' :: hexChars 8 n

/-- `s.encode("unicode-escape").decode()` for a Python `str` `s`. -/
def unicodeEscape (s : String) : String :=
  String.mk (s.data.flatMap unicodeEscapeChar)

/-- Insertion into a Python set modelled as a duplicate-free list:
a no-op when the element is already present. -/
def setAdd (l : List String) (w : String) : List String :=
  if w ∈ l then l else l ++ [w]

/-- `set.update`: insert every element of `ws` in turn. -/
def setUnion (l ws : List String) : List String :=
  ws.foldl setAdd l

/-- `SafeTextIO.__get_word_variants(word)`: the Python set literal
`{word, json.dumps(word), json.dumps(word).encode("unicode-escape").decode(),
word.encode("unicode-escape").decode()}`. -/
def getWordVariants (w : String) : List String :=
  setUnion [] [w, jsonDumps w, unicodeEscape (jsonDumps w), unicodeEscape w]

/-- The set comprehension built inside `SafeTextIO.add_words`:
`{variant for word in bad_words if str(word) not in cls._bad_words
 for variant in cls.__get_word_variants(str(word))}`.
The membership test is against the vocabulary as it was before the call
(the comprehension is fully evaluated before `update` runs). -/
def wordsToAdd (vocab : List String) (ws : List String) : List String :=
  ws.foldl (fun acc w => if w ∈ vocab then acc else setUnion acc (getWordVariants w)) []

/-- `SafeTextIO.add_words(bad_words)` acting on the class vocabulary:
`cls._bad_words.update(<comprehension>)`. Inputs are taken already in their
`str(word)` form. -/
def addWords (vocab : List String) (ws : List String) : List String :=
  setUnion vocab (wordsToAdd vocab ws)

example : jsonDumps "a" = "\"a\"" := by decide
example : unicodeEscape "a" = "a" := by decide
example : getWordVariants "a" = ["a", "\"a\""] := by decide
example : addWords [] ["ab", "abc"] = ["ab", "\"ab\"", "abc", "\"abc\""] := by decide
example : jsonDumps "\"a\"" = "\"\\\"a\\\"\"" := by decide

/-- `a` starts with the characters of `b` (literal match, since the pattern
builder passes every vocabulary entry through `re.escape`). -/
def leads : List Char → List Char → Bool
  | [], _ => true
  | _ :: _, [] => false
  | a :: as, b :: bs => a = b && leads as bs

/-- The first alternation branch of the compiled pattern that matches at the
current position (Python regex alternation tries branches left to right). -/
def findMatch (ws : List String) (l : List Char) : Option String :=
  ws.find? (fun w => leads w.data l)

/-- One left-to-right pass of `pattern.sub(lambda m: "*" * len(m.group(0)), s)`
for an alternation of literal branches `ws`: at each position the first
matching branch is replaced by as many `*` as it has characters and scanning
resumes after the match; on a zero-width match (only the empty branch) the
replacement is empty and the next character is copied; with no match the
character is copied. `fuel` only bounds the recursion and never runs out
when it starts at the length of the text. -/
def subMaskAux (ws : List String) : Nat → List Char → List Char
  | _, [] => []
  | 0, l => l
  | fuel + 1, c :: cs =>
    match findMatch ws (c :: cs) with
    | some w =>
      if w.length = 0 then c :: subMaskAux ws fuel cs
      else List.replicate w.length '*' ++ subMaskAux ws fuel ((c :: cs).drop w.length)
    | none => c :: subMaskAux ws fuel cs

/-- The censoring substitution over a message. -/
def subMask (ws : List String) (s : String) : String :=
  String.mk (subMaskAux ws s.data.length s.data)

/-- Insertion of `w` into a list sorted by length descending, in front of
the first strictly shorter element. -/
def insertByLen (w : String) : List String → List String
  | [] => [w]
  | x :: xs => if x.length < w.length then w :: x :: xs else x :: insertByLen w xs

/-- `sorted(words, key=len, reverse=True)`: the vocabulary entries ordered by
length descending. Ties between equal-length entries follow Python's
unspecified set iteration order; they cannot influence the substitution,
because two distinct equal-length literals never match at the same position. -/
def sortWords (ws : List String) : List String :=
  ws.foldr insertByLen []

example : sortWords ["ab", "abcd", "a", "xy"] = ["abcd", "xy", "ab", "a"] := by decide
example : subMask ["abc", "ab"] "xabcx" = "x***x" := by decide
example : subMask [] "xabcx" = "xabcx" := by decide
example : subMask [""] "ab" = "ab" := by decide

/-- The process-wide state of `SafeTextIO`: the class-level vocabulary
`_bad_words` and the class-level `_pattern_cache`. The compiled regex is
represented by the list of its alternation branches in order
(`re.compile("")`, the initial cache entry, is the alternation of no
branches, `[]`). -/
structure SinkState where
  badWords : List String
  cacheWords : List String
  cacheVersion : Nat
deriving DecidableEq, Repr

/-- The state at import time: empty vocabulary, cache `(re.compile(""), 0)`. -/
def initState : SinkState := ⟨[], [], 0⟩

/-- Everything one `SafeTextIO.write` call produces: the class state after
the call, the censored string forwarded to the wrapped destination,
which compiled alternation (if any) performed the substitution, and
whether the cache-miss rebuild path ran. -/
structure WriteResult where
  state : SinkState
  output : String
  usedMatcher : Option (List String)
  rebuilt : Bool
deriving DecidableEq, Repr

/-- `SafeTextIO.write(message)` on the shared class state.

Mirrors the source line by line: empty-vocabulary fast path; version
fingerprint `len(_bad_words)`; on version mismatch rebuild the pattern from
the vocabulary sorted by length descending and store the pair
`(pattern, cached_version)` back into the cache — the source stores the
stale `cached_version` it read, not the fresh `words_version`; finally
substitute and forward. -/
def write (st : SinkState) (msg : String) : WriteResult :=
  if st.badWords = [] then ⟨st, msg, none, false⟩
  else if st.cacheVersion ≠ st.badWords.length then
    ⟨⟨st.badWords, sortWords st.badWords, st.cacheVersion⟩,
      subMask (sortWords st.badWords) msg, some (sortWords st.badWords), true⟩
  else ⟨st, subMask st.cacheWords msg, some st.cacheWords, false⟩

/-- The operations that touch the shared state, tagged with the sink they
go through. Constructing a sink (`SafeTextIO.__init__`) merges its
`bad_words` argument into the class vocabulary via `add_words`; `add_words`
itself is a classmethod independent of any sink; `write` reads the shared
vocabulary and cache. -/
inductive Op where
  | newSink (sinkId : Nat) (ws : List String)
  | addW (ws : List String)
  | doWrite (sinkId : Nat) (msg : String)
deriving DecidableEq, Repr

/-- Run a sequence of operations, returning the final shared state and the
chronological log of `(sinkId, forwarded text)` pairs, one per write. -/
def runOps (st : SinkState) : List Op → SinkState × List (Nat × String)
  | [] => (st, [])
  | Op.newSink _ ws :: rest => runOps ⟨addWords st.badWords ws, st.cacheWords, st.cacheVersion⟩ rest
  | Op.addW ws :: rest => runOps ⟨addWords st.badWords ws, st.cacheWords, st.cacheVersion⟩ rest
  | Op.doWrite sid msg :: rest =>
    ((runOps (write st msg).state rest).1,
      (sid, (write st msg).output) :: (runOps (write st msg).state rest).2)

/-- The shared state reached from process start after `ops`. -/
def execOps (ops : List Op) : SinkState := (runOps initState ops).1

/-- A hashable Python value that can appear among the values of a parsed
secret: a string, or a non-string scalar such as a JSON number. -/
inductive PyVal where
  | pstr (s : String)
  | pint (n : Int)
deriving DecidableEq, Repr

/-- Python `str(v)`. On strings it is the identity; on ints it is the
decimal rendering, with a leading minus sign when negative. -/
def pyStr : PyVal → String
  | .pstr s => s
  | .pint n => toString n

/-- One entry of `SecretManager.secrets`: the parsed content of a secret
file, either a stripped text (`str`) or a parsed JSON object (`dict`),
the latter kept as the list of its values (`secret.values()`) — keys are
never fed to the vocabulary. -/
inductive Secret where
  | txt (s : String)
  | obj (vs : List PyVal)
deriving DecidableEq, Repr

/-- `set(secret.values()) if isinstance(secret, dict) else {secret}`:
the values one registry entry contributes to the bad-word set. -/
def secretBadWords : Secret → List PyVal
  | .txt s => [.pstr s]
  | .obj vs => vs

/-- `SecretManager.update_bad_words()`: collect every secret's values into
one set and hand it to `SafeTextIO.add_words`, which stringifies each value
with `str(word)` before the membership check and variant expansion. -/
def updateBadWords (secrets : List Secret) (vocab : List String) : List String :=
  addWords vocab ((secrets.flatMap secretBadWords).map pyStr)

example : pyStr (.pint 1234) = "1234" := by decide
example : pyStr (.pint (-7)) = "-7" := by decide
example :
    updateBadWords [.obj [.pstr "s3cr3t", .pint 1234]] [] =
      ["s3cr3t", "\"s3cr3t\"", "1234", "\"1234\""] := by decide

/-! ### Set-list lemmas -/

theorem mem_setAdd (l : List String) (w a : String) :
    a ∈ setAdd l w ↔ a ∈ l ∨ a = w := by
  unfold setAdd
  by_cases h : w ∈ l
  · simp only [if_pos h]
    constructor
    · exact fun ha => Or.inl ha
    · rintro (ha | rfl)
      · exact ha
      · exact h
  · simp [if_neg h]

theorem subset_setUnion_left (l ws : List String) : l ⊆ setUnion l ws := by
  induction ws generalizing l with
  | nil => exact fun a ha => ha
  | cons w rest ih =>
    intro a ha
    exact ih (setAdd l w) ((mem_setAdd l w a).mpr (Or.inl ha))

theorem mem_setUnion_right (l ws : List String) (w : String) (hw : w ∈ ws) :
    w ∈ setUnion l ws := by
  induction ws generalizing l with
  | nil => cases hw
  | cons x rest ih =>
    rcases List.mem_cons.mp hw with rfl | hw
    · exact subset_setUnion_left (setAdd l w) rest ((mem_setAdd l w w).mpr (Or.inr rfl))
    · exact ih (setAdd l x) hw

theorem self_mem_getWordVariants (w : String) : w ∈ getWordVariants w :=
  mem_setUnion_right [] _ w (List.mem_cons_self _ _)

/-- Elements already in the accumulator survive the `wordsToAdd` fold. -/
theorem wordsToAddAux_mono (vocab ws acc : List String) :
    acc ⊆ ws.foldl (fun acc w => if w ∈ vocab then acc else setUnion acc (getWordVariants w)) acc := by
  induction ws generalizing acc with
  | nil => exact fun a ha => ha
  | cons x rest ih =>
    intro a ha
    simp only [List.foldl_cons]
    by_cases hx : x ∈ vocab
    · rw [if_pos hx]; exact ih acc ha
    · rw [if_neg hx]
      exact ih (setUnion acc (getWordVariants x)) (subset_setUnion_left acc _ ha)

theorem variants_subset_foldl (vocab ws : List String) (acc : List String) (w : String)
    (hw : w ∈ ws) (hnot : w ∉ vocab) :
    getWordVariants w ⊆
      ws.foldl (fun acc w => if w ∈ vocab then acc else setUnion acc (getWordVariants w)) acc := by
  induction ws generalizing acc with
  | nil => cases hw
  | cons x rest ih =>
    simp only [List.foldl_cons]
    rcases List.mem_cons.mp hw with rfl | hw
    · rw [if_neg hnot]
      intro a ha
      exact wordsToAddAux_mono vocab rest _ (mem_setUnion_right acc (getWordVariants w) a ha)
    · exact ih _ hw

theorem variants_subset_wordsToAdd (vocab ws : List String) (w : String)
    (hw : w ∈ ws) (hnot : w ∉ vocab) :
    getWordVariants w ⊆ wordsToAdd vocab ws :=
  variants_subset_foldl vocab ws [] w hw hnot

theorem subset_addWords (vocab ws : List String) : vocab ⊆ addWords vocab ws :=
  subset_setUnion_left vocab (wordsToAdd vocab ws)

theorem variants_subset_addWords (vocab ws : List String) (w : String)
    (hw : w ∈ ws) (hnot : w ∉ vocab) :
    getWordVariants w ⊆ addWords vocab ws := by
  intro a ha
  exact mem_setUnion_right vocab (wordsToAdd vocab ws) a
    (variants_subset_wordsToAdd vocab ws w hw hnot ha)

theorem self_mem_addWords (vocab ws : List String) (w : String) (hw : w ∈ ws) :
    w ∈ addWords vocab ws := by
  by_cases hv : w ∈ vocab
  · exact subset_addWords vocab ws hv
  · exact variants_subset_addWords vocab ws w hw hv (self_mem_getWordVariants w)

/-- When every input is already a vocabulary entry, the `add_words`
comprehension is empty. -/
theorem wordsToAdd_eq_nil (vocab ws : List String) (h : ∀ w ∈ ws, w ∈ vocab) :
    wordsToAdd vocab ws = [] := by
  unfold wordsToAdd
  induction ws with
  | nil => rfl
  | cons x rest ih =>
    simp only [List.foldl_cons, if_pos (h x (List.mem_cons_self x rest))]
    exact ih (fun w hw => h w (List.mem_cons_of_mem x hw))

/-- When every input is already a vocabulary entry, `add_words` changes
nothing at all. -/
theorem addWords_eq_self (vocab ws : List String) (h : ∀ w ∈ ws, w ∈ vocab) :
    addWords vocab ws = vocab := by
  unfold addWords
  rw [wordsToAdd_eq_nil vocab ws h]
  rfl

/-! ### Sorting and matching lemmas -/

theorem mem_insertByLen (w a : String) (l : List String) :
    a ∈ insertByLen w l ↔ a = w ∨ a ∈ l := by
  induction l with
  | nil => simp [insertByLen]
  | cons x xs ih =>
    unfold insertByLen
    by_cases h : x.length < w.length
    · simp [if_pos h]
    · rw [if_neg h]
      simp only [List.mem_cons, ih]
      tauto

theorem mem_sortWords (ws : List String) (a : String) :
    a ∈ sortWords ws ↔ a ∈ ws := by
  unfold sortWords
  induction ws with
  | nil => simp
  | cons x xs ih =>
    simp only [List.foldr_cons, mem_insertByLen, List.mem_cons, ih]

theorem leads_length_le (a b : List Char) (h : leads a b = true) : a.length ≤ b.length := by
  induction a generalizing b with
  | nil => exact Nat.zero_le _
  | cons x xs ih =>
    cases b with
    | nil => cases h
    | cons y ys =>
      unfold leads at h
      rcases Bool.and_eq_true_iff.mp h with ⟨-, h2⟩
      exact Nat.succ_le_succ (ih ys h2)

theorem findMatch_length_le (ws : List String) (l : List Char) (w : String)
    (h : findMatch ws l = some w) : w.length ≤ l.length := by
  unfold findMatch at h
  have hl := List.find?_some h
  exact leads_length_le w.data l hl

/-- Unfolding equation for `subMaskAux` at a nonempty text. -/
theorem subMaskAux_cons (ws : List String) (fuel : Nat) (c : Char) (cs : List Char) :
    subMaskAux ws (fuel + 1) (c :: cs) =
      match findMatch ws (c :: cs) with
      | some w =>
        if w.length = 0 then c :: subMaskAux ws fuel cs
        else List.replicate w.length '*' ++ subMaskAux ws fuel ((c :: cs).drop w.length)
      | none => c :: subMaskAux ws fuel cs := rfl

theorem subMaskAux_length (ws : List String) (fuel : Nat) (l : List Char)
    (h : l.length ≤ fuel) : (subMaskAux ws fuel l).length = l.length := by
  induction fuel generalizing l with
  | zero =>
    cases l with
    | nil => rfl
    | cons c cs => cases h
  | succ fuel ih =>
    cases l with
    | nil => rfl
    | cons c cs =>
      rw [subMaskAux_cons]
      cases hm : findMatch ws (c :: cs) with
      | none =>
        show (c :: subMaskAux ws fuel cs).length = (c :: cs).length
        simp only [List.length_cons]
        rw [ih cs (Nat.le_of_succ_le_succ h)]
      | some w =>
        show (if w.length = 0 then c :: subMaskAux ws fuel cs
          else List.replicate w.length '*' ++
            subMaskAux ws fuel ((c :: cs).drop w.length)).length = (c :: cs).length
        by_cases hw : w.length = 0
        · rw [if_pos hw]
          simp only [List.length_cons]
          rw [ih cs (Nat.le_of_succ_le_succ h)]
        · rw [if_neg hw]
          have hle : w.length ≤ (c :: cs).length := findMatch_length_le ws (c :: cs) w hm
          have hdrop : ((c :: cs).drop w.length).length = (c :: cs).length - w.length :=
            List.length_drop _ _
          have hfuel : ((c :: cs).drop w.length).length ≤ fuel := by
            rw [hdrop]
            have h1 : 1 ≤ w.length := Nat.one_le_iff_ne_zero.mpr hw
            have h2 : (c :: cs).length - w.length ≤ (c :: cs).length - 1 :=
              Nat.sub_le_sub_left h1 _
            exact le_trans h2 (Nat.le_of_succ_le_succ (by simpa using h))
          rw [List.length_append, List.length_replicate, ih _ hfuel, hdrop]
          omega

theorem subMask_length (ws : List String) (s : String) :
    (subMask ws s).length = s.length := by
  show (subMaskAux ws s.data.length s.data).length = s.data.length
  exact subMaskAux_length ws s.data.length s.data le_rfl

/-! ### Lemmas about `write` and operation traces -/

theorem write_state_badWords (st : SinkState) (msg : String) :
    (write st msg).state.badWords = st.badWords := by
  unfold write
  by_cases h : st.badWords = []
  · rw [if_pos h]
  · rw [if_neg h]
    by_cases hv : st.cacheVersion ≠ st.badWords.length
    · rw [if_pos hv]
    · rw [if_neg hv]

/-- `write` never changes the cached version: on a cache miss the source
stores the stale `cached_version` it read, not the fresh `words_version`. -/
theorem write_state_cacheVersion (st : SinkState) (msg : String) :
    (write st msg).state.cacheVersion = st.cacheVersion := by
  unfold write
  by_cases h : st.badWords = []
  · rw [if_pos h]
  · rw [if_neg h]
    by_cases hv : st.cacheVersion ≠ st.badWords.length
    · rw [if_pos hv]
    · rw [if_neg hv]

theorem write_miss (st : SinkState) (msg : String) (h : st.badWords ≠ [])
    (hv : st.cacheVersion ≠ st.badWords.length) :
    write st msg = ⟨⟨st.badWords, sortWords st.badWords, st.cacheVersion⟩,
      subMask (sortWords st.badWords) msg, some (sortWords st.badWords), true⟩ := by
  unfold write
  rw [if_neg h, if_pos hv]

theorem badWords_subset_runOps (ops : List Op) (st : SinkState) :
    st.badWords ⊆ ((runOps st ops).1).badWords := by
  induction ops generalizing st with
  | nil => exact fun a ha => ha
  | cons op rest ih =>
    cases op with
    | newSink sid ws =>
      intro a ha
      exact ih ⟨addWords st.badWords ws, st.cacheWords, st.cacheVersion⟩
        (subset_addWords st.badWords ws ha)
    | addW ws =>
      intro a ha
      exact ih ⟨addWords st.badWords ws, st.cacheWords, st.cacheVersion⟩
        (subset_addWords st.badWords ws ha)
    | doWrite sid msg =>
      intro a ha
      have hb : a ∈ (write st msg).state.badWords := by
        rw [write_state_badWords]; exact ha
      exact ih (write st msg).state hb

/-- Along any trace the cached version never moves; in particular every
state reachable from process start has `cacheVersion = 0`. -/
theorem runOps_cacheVersion (ops : List Op) (st : SinkState) :
    ((runOps st ops).1).cacheVersion = st.cacheVersion := by
  induction ops generalizing st with
  | nil => rfl
  | cons op rest ih =>
    cases op with
    | newSink sid ws => exact ih ⟨addWords st.badWords ws, st.cacheWords, st.cacheVersion⟩
    | addW ws => exact ih ⟨addWords st.badWords ws, st.cacheWords, st.cacheVersion⟩
    | doWrite sid msg =>
      exact (ih (write st msg).state).trans (write_state_cacheVersion st msg)

theorem execOps_cacheVersion (ops : List Op) : (execOps ops).cacheVersion = 0 :=
  runOps_cacheVersion ops initState

/-- Every nonempty-vocabulary `write` from a reachable state takes the
cache-miss path and uses the alternation of the current vocabulary sorted
by length descending. -/
theorem write_fresh (st : SinkState) (msg : String) (h0 : st.cacheVersion = 0)
    (hne : st.badWords ≠ []) :
    write st msg = ⟨⟨st.badWords, sortWords st.badWords, st.cacheVersion⟩,
      subMask (sortWords st.badWords) msg, some (sortWords st.badWords), true⟩ := by
  refine write_miss st msg hne ?_
  rw [h0]
  intro hlen
  exact hne (List.eq_nil_of_length_eq_zero hlen.symm)

theorem runOps_append (l1 l2 : List Op) (st : SinkState) :
    runOps st (l1 ++ l2) =
      ((runOps (runOps st l1).1 l2).1,
        (runOps st l1).2 ++ (runOps (runOps st l1).1 l2).2) := by
  induction l1 generalizing st with
  | nil =>
    show runOps st l2 = ((runOps st l2).1, [] ++ (runOps st l2).2)
    rw [List.nil_append]
  | cons op rest ih =>
    cases op with
    | newSink sid ws => exact ih ⟨addWords st.badWords ws, st.cacheWords, st.cacheVersion⟩
    | addW ws => exact ih ⟨addWords st.badWords ws, st.cacheWords, st.cacheVersion⟩
    | doWrite sid msg =>
      show ((runOps (write st msg).state (rest ++ l2)).1,
          (sid, (write st msg).output) :: (runOps (write st msg).state (rest ++ l2)).2) = _
      rw [ih (write st msg).state]
      rfl

/-- Inputs whose string form is already a vocabulary entry contribute
nothing to the `add_words` comprehension: dropping them from the input
leaves the comprehension unchanged. -/
theorem foldl_filter_present (vocab : List String) (v : String) (hv : v ∈ vocab)
    (ws acc : List String) :
    ws.foldl (fun acc w => if w ∈ vocab then acc else setUnion acc (getWordVariants w)) acc =
      (ws.filter (fun w => w != v)).foldl
        (fun acc w => if w ∈ vocab then acc else setUnion acc (getWordVariants w)) acc := by
  induction ws generalizing acc with
  | nil => rfl
  | cons x rest ih =>
    by_cases hx : x = v
    · subst hx
      rw [List.filter_cons_of_neg (by simp)]
      simp only [List.foldl_cons, if_pos hv]
      exact ih acc
    · rw [List.filter_cons_of_pos (by simp [hx])]
      simp only [List.foldl_cons]
      exact ih _

theorem wordsToAdd_filter (vocab ws : List String) (v : String) (hv : v ∈ vocab) :
    wordsToAdd vocab ws = wordsToAdd vocab (ws.filter (fun w => w != v)) :=
  foldl_filter_present vocab v hv ws []

/-! ### The claims -/

/-- Claim C1 concerns the cache update after a cache-miss rebuild. The claim
says the cache then holds the new matcher paired with the vocabulary
cardinality at rebuild time, so that an immediately following write with an
unchanged vocabulary takes the cache-hit path. The code instead stores the
stale `cached_version` it read out of the cache, so after `add_words(["a"])`
(vocabulary cardinality 2) the first write rebuilds and leaves
`cacheVersion = 0`, and the immediately following write with the unchanged
vocabulary takes the cache-miss path again and recompiles. -/
theorem rebuildStoresStaleVersion :
    (write (execOps [Op.addW ["a"]]) "x").rebuilt = true ∧
      (write (execOps [Op.addW ["a"]]) "x").state.badWords.length = 2 ∧
      (write (execOps [Op.addW ["a"]]) "x").state.cacheVersion = 0 ∧
      (write (write (execOps [Op.addW ["a"]]) "x").state "x").rebuilt = true := by
  decide

/-- Claim C2 as stated fails: the vocabulary is not closed under variant
expansion of entries that were themselves inserted as derived variants.
After `add_words(["a"])` the JSON-quoted variant `"a"` (with quotes) is an
entry, but its own JSON-quoted form is not. -/
theorem variantExpansionNotClosed :
    "\"a\"" ∈ (execOps [Op.addW ["a"]]).badWords ∧
      jsonDumps "\"a\"" ∉ (execOps [Op.addW ["a"]]).badWords := by
  decide

/-- Claim C2, amended: the variant-closure invariant holds for raw inputs.
For every string `s` handed to `add_words` (directly or through a sink
constructor) at a moment when `s` itself is not yet a vocabulary entry, all
four of `s`'s variants become vocabulary entries and remain present under
every later operation; entries inserted only as derived variants are not
themselves re-expanded. -/
theorem rawInputVariantsPersist (V pat : List String) (ver : Nat) (ws : List String)
    (s : String) (ops : List Op) (hs : s ∈ ws) (hnot : s ∉ V) :
    getWordVariants s ⊆ ((runOps ⟨addWords V ws, pat, ver⟩ ops).1).badWords := by
  intro a ha
  exact badWords_subset_runOps ops ⟨addWords V ws, pat, ver⟩
    (variants_subset_addWords V ws s hs hnot ha)

/-- Witness for the amended C2 at a concrete trace. -/
theorem rawInputVariantsPersist_witness :
    ("a" ∈ ["a"] ∧ "a" ∉ ([] : List String)) ∧
      getWordVariants "a" ⊆
        ((runOps ⟨addWords [] ["a"], [], 0⟩ [Op.doWrite 0 "m"]).1).badWords :=
  ⟨⟨by decide, by decide⟩,
    rawInputVariantsPersist [] [] 0 ["a"] "a" [Op.doWrite 0 "m"] (by decide) (by decide)⟩

/-- Claim C3: every matched span is replaced by exactly as many `*` as its
length, so the censored string forwarded to the underlying destination has
the same length as the message — for every state, on every `write` path. -/
theorem writeOutputLengthEq (st : SinkState) (msg : String) :
    ((write st msg).output).length = msg.length := by
  unfold write
  by_cases h : st.badWords = []
  · rw [if_pos h]
  · rw [if_neg h]
    by_cases hv : st.cacheVersion ≠ st.badWords.length
    · rw [if_pos hv]
      exact subMask_length _ msg
    · rw [if_neg hv]
      exact subMask_length _ msg

/-- Claim C4: with vocabulary exactly the entries derived from
`\{"ab", "abc"\}`, `write("xabcx")` forwards `"x***x"`: the longer entry is
matched as one 3-character run, never the shorter prefix first. -/
theorem longestMatchPrecedence :
    (execOps [Op.addW ["ab", "abc"]]).badWords = ["ab", "\"ab\"", "abc", "\"abc\""] ∧
      (write (execOps [Op.addW ["ab", "abc"]]) "xabcx").output = "x***x" := by
  decide

/-- Claim C5: freshness. In every sequence of vocabulary additions
interleaved with writes starting from process start, each write substitutes
with a matcher whose pattern set contains every entry of the vocabulary as
it exists at that moment — no entry added strictly before the write is
missed by it. -/
theorem writeMatcherSupersetOfVocabulary (ops : List Op) (msg w : String)
    (hw : w ∈ (execOps ops).badWords) :
    ∃ pat, (write (execOps ops) msg).usedMatcher = some pat ∧ w ∈ pat ∧
      (write (execOps ops) msg).output = subMask pat msg := by
  have hne : (execOps ops).badWords ≠ [] := by
    intro h
    rw [h] at hw
    cases hw
  have h0 : (execOps ops).cacheVersion = 0 := execOps_cacheVersion ops
  refine ⟨sortWords (execOps ops).badWords, ?_, (mem_sortWords _ w).mpr hw, ?_⟩
  · rw [write_fresh _ msg h0 hne]
  · rw [write_fresh _ msg h0 hne]

/-- Witness for C5 at a concrete trace. -/
theorem writeMatcherSupersetOfVocabulary_witness :
    "a" ∈ (execOps [Op.addW ["a"]]).badWords ∧
      ∃ pat, (write (execOps [Op.addW ["a"]]) "m a").usedMatcher = some pat ∧ "a" ∈ pat ∧
        (write (execOps [Op.addW ["a"]]) "m a").output = subMask pat "m a" :=
  ⟨by decide, writeMatcherSupersetOfVocabulary [Op.addW ["a"]] "m a" "a" (by decide)⟩

/-- Claim C6: idempotent insertion. Calling `add_words([s])` twice in
succession leaves the vocabulary exactly as after the first call: the second
call's comprehension is empty (no insertions), the vocabulary is unchanged,
and in particular its cardinality is unchanged. -/
theorem addWordsTwiceIdempotent (V : List String) (s : String) :
    wordsToAdd (addWords V [s]) [s] = [] ∧
      addWords (addWords V [s]) [s] = addWords V [s] ∧
      (addWords (addWords V [s]) [s]).length = (addWords V [s]).length := by
  have hall : ∀ w ∈ [s], w ∈ addWords V [s] := by
    intro w hw
    rcases List.mem_cons.mp hw with rfl | h
    · exact self_mem_addWords V [w] w (List.mem_cons_self w [])
    · cases h
  have h2 : addWords (addWords V [s]) [s] = addWords V [s] :=
    addWords_eq_self (addWords V [s]) [s] hall
  exact ⟨wordsToAdd_eq_nil (addWords V [s]) [s] hall, h2, by rw [h2]⟩

/-- Claim C7: the vocabulary is process-wide, not per-sink. A word
registered through one sink's construction is in the shared vocabulary
afterwards, is part of the matcher of every subsequent write performed
through any other sink, and the text that write forwards to the other
sink's destination is the censored output of that very write. -/
theorem sharedVocabularyAcrossSinks (ops1 ops2 : List Op) (a b : Nat)
    (ws : List String) (w msg : String) (hw : w ∈ ws) :
    w ∈ (execOps (ops1 ++ (Op.newSink a ws :: ops2))).badWords ∧
      (∃ pat,
        (write (execOps (ops1 ++ (Op.newSink a ws :: ops2))) msg).usedMatcher = some pat ∧
          w ∈ pat) ∧
      (runOps initState (ops1 ++ (Op.newSink a ws :: (ops2 ++ [Op.doWrite b msg])))).2 =
        (runOps initState (ops1 ++ (Op.newSink a ws :: ops2))).2 ++
          [(b, (write (execOps (ops1 ++ (Op.newSink a ws :: ops2))) msg).output)] := by
  have hsplit : execOps (ops1 ++ (Op.newSink a ws :: ops2)) =
      (runOps ⟨addWords ((runOps initState ops1).1).badWords ws,
        ((runOps initState ops1).1).cacheWords,
        ((runOps initState ops1).1).cacheVersion⟩ ops2).1 := by
    show (runOps initState (ops1 ++ (Op.newSink a ws :: ops2))).1 = _
    rw [runOps_append]
    rfl
  have hmem : w ∈ (execOps (ops1 ++ (Op.newSink a ws :: ops2))).badWords := by
    rw [hsplit]
    exact badWords_subset_runOps ops2 _
      (self_mem_addWords ((runOps initState ops1).1).badWords ws w hw)
  have hne : (execOps (ops1 ++ (Op.newSink a ws :: ops2))).badWords ≠ [] := by
    intro h
    rw [h] at hmem
    cases hmem
  have h0 : (execOps (ops1 ++ (Op.newSink a ws :: ops2))).cacheVersion = 0 :=
    execOps_cacheVersion _
  refine ⟨hmem, ⟨sortWords (execOps (ops1 ++ (Op.newSink a ws :: ops2))).badWords, ?_,
    (mem_sortWords _ w).mpr hmem⟩, ?_⟩
  · rw [write_fresh _ msg h0 hne]
  · have hlist : ops1 ++ (Op.newSink a ws :: (ops2 ++ [Op.doWrite b msg])) =
        (ops1 ++ (Op.newSink a ws :: ops2)) ++ [Op.doWrite b msg] := by
      rw [List.append_assoc]
      rfl
    rw [hlist, runOps_append]
    rfl

/-- Witness for C7: the spec's shared-sink scenario. Sink A is constructed
with the word `zzz`, sink B is constructed afterwards, and a write of
`"has zzz"` through B forwards `"has ***"`. -/
theorem sharedVocabularyAcrossSinks_witness :
    "zzz" ∈ ["zzz"] ∧
      ("zzz" ∈ (execOps ([] ++ (Op.newSink 0 ["zzz"] :: [Op.newSink 1 []]))).badWords ∧
        (∃ pat,
          (write (execOps ([] ++ (Op.newSink 0 ["zzz"] :: [Op.newSink 1 []])))
              "has zzz").usedMatcher = some pat ∧ "zzz" ∈ pat) ∧
        (runOps initState
            ([] ++ (Op.newSink 0 ["zzz"] :: ([Op.newSink 1 []] ++ [Op.doWrite 1 "has zzz"])))).2 =
          (runOps initState ([] ++ (Op.newSink 0 ["zzz"] :: [Op.newSink 1 []]))).2 ++
            [(1, (write (execOps ([] ++ (Op.newSink 0 ["zzz"] :: [Op.newSink 1 []])))
              "has zzz").output)]) ∧
      (write (execOps ([] ++ (Op.newSink 0 ["zzz"] :: [Op.newSink 1 []]))) "has zzz").output =
        "has ***" :=
  ⟨by decide,
    sharedVocabularyAcrossSinks [] [Op.newSink 1 []] 0 1 ["zzz"] "zzz" "has zzz" (by decide),
    by decide⟩

/-- Claim C8 as stated fails: a non-string value appearing among a parsed
secret's dictionary values is fed to the vocabulary — `add_words` inserts
its `str()` form. With one registry entry whose values are the number 1234,
`update_bad_words` leaves the vocabulary nonempty and containing `"1234"`. -/
theorem numericSecretValueInserted :
    "1234" ∈ updateBadWords [Secret.obj [PyVal.pint 1234]] [] ∧
      updateBadWords [Secret.obj [PyVal.pint 1234]] [] ≠ [] := by
  decide

/-- Claim C8, amended: every vocabulary insertion made on behalf of a
secret value is a string because `add_words` stringifies with `str()`
first; but non-string hashable values (such as numbers) are not skipped —
the variants of their `str()` form are inserted whenever that form is not
already an entry. -/
theorem secretValuesInsertedAsStringForm (secrets : List Secret) (vocab : List String)
    (v : PyVal) (hv : v ∈ secrets.flatMap secretBadWords) (hnot : pyStr v ∉ vocab) :
    getWordVariants (pyStr v) ⊆ updateBadWords secrets vocab := by
  have hmem : pyStr v ∈ (secrets.flatMap secretBadWords).map pyStr :=
    List.mem_map_of_mem pyStr hv
  exact variants_subset_addWords vocab _ (pyStr v) hmem hnot

/-- Witness for the amended C8 at a concrete secret registry. -/
theorem secretValuesInsertedAsStringForm_witness :
    (PyVal.pint 1234 ∈ ([Secret.obj [PyVal.pint 1234]] : List Secret).flatMap secretBadWords ∧
      pyStr (PyVal.pint 1234) ∉ ([] : List String)) ∧
      getWordVariants (pyStr (PyVal.pint 1234)) ⊆
        updateBadWords [Secret.obj [PyVal.pint 1234]] [] :=
  ⟨⟨by decide, by decide⟩,
    secretValuesInsertedAsStringForm [Secret.obj [PyVal.pint 1234]] []
      (PyVal.pint 1234) (by decide) (by decide)⟩

/-- Claim C9: with an empty vocabulary, `write` forwards the message
completely unmodified and short-circuits: the state is untouched, no
matcher is consulted and no rebuild happens. -/
theorem emptyVocabularyFastPath (st : SinkState) (msg : String)
    (h : st.badWords = []) :
    write st msg = ⟨st, msg, none, false⟩ := by
  unfold write
  rw [if_pos h]

/-- Witness for C9 at the start state. -/
theorem emptyVocabularyFastPath_witness :
    initState.badWords = [] ∧ write initState "hello" = ⟨initState, "hello", none, false⟩ :=
  ⟨rfl, emptyVocabularyFastPath initState "hello" rfl⟩

/-- Claim C10: a value whose string form is already a vocabulary entry —
even if only as a derived variant of a different, previously added value —
contributes nothing to an `add_words` call: alone it adds no entry and
leaves the vocabulary unchanged, and inside a larger call the result equals
the result of the call without it. -/
theorem alreadyPresentInputAddsNothing (V ws : List String) (v : String) (hv : v ∈ V) :
    wordsToAdd V [v] = [] ∧ addWords V [v] = V ∧
      addWords V ws = addWords V (ws.filter (fun w => w != v)) := by
  have hall : ∀ w ∈ [v], w ∈ V := by
    intro w hw
    rcases List.mem_cons.mp hw with rfl | h
    · exact hv
    · cases h
  refine ⟨wordsToAdd_eq_nil V [v] hall, addWords_eq_self V [v] hall, ?_⟩
  unfold addWords
  rw [wordsToAdd_filter V ws v hv]

/-- Witness for C10: `"a"` (with quotes) is present only as a derived
variant of the raw value `a`; adding it again changes nothing. -/
theorem alreadyPresentInputAddsNothing_witness :
    "\"a\"" ∈ (execOps [Op.addW ["a"]]).badWords ∧
      (wordsToAdd (execOps [Op.addW ["a"]]).badWords ["\"a\""] = [] ∧
        addWords (execOps [Op.addW ["a"]]).badWords ["\"a\""] =
          (execOps [Op.addW ["a"]]).badWords ∧
        addWords (execOps [Op.addW ["a"]]).badWords ["x", "\"a\""] =
          addWords (execOps [Op.addW ["a"]]).badWords
            (["x", "\"a\""].filter (fun w => w != "\"a\""))) :=
  ⟨by decide,
    alreadyPresentInputAddsNothing (execOps [Op.addW ["a"]]).badWords
      ["x", "\"a\""] "\"a\"" (by decide)⟩

end CensorModel

